import Mathlib

/-
Verification development for the GIS duplicate-removal engine
(`duplicateRemover.py`): a shallow embedding of its data model and
operations, followed by theorems settling the specification claims.

Modelling conventions:
* A file path is its character sequence (`Path := List Char`), written
  with `/` separators exactly as the Python code handles strings.
* File contents are byte lists; a SHA-256 digest is determined by the
  byte stream fed into it, so we model a digest as that stream
  (the standard collision-freeness idealization).
* The filesystem is a directory listing (paths in the enumeration order
  that `os.walk` / `glob` would return) plus a read function where
  `none` models an unreadable file (missing or permission denied),
  a creation-time lookup that can succeed, fail with FileNotFoundError,
  or fail with another OSError (permission denied), and an oracle
  saying which destination paths can be written (models `shutil.copy2`
  or `os.makedirs` failures).
* Python exceptions that the code catches are modelled by the branch
  structure of the corresponding Lean function; the one exception the
  code does NOT catch (`_safe_ctime` only catches FileNotFoundError)
  is modelled with `Except`, so it propagates exactly as in Python.
-/

namespace DupRemover

/-- A file path, as its exact character sequence. -/
abbrev Path := List Char

/-- Byte content of a file. -/
abbrev Content := List Nat

/-- A SHA-256 digest is a function of the byte stream that was fed to it;
we model the digest as that stream (collision-freeness idealization):
two digests are equal exactly when the fed streams are equal. -/
abbrev Digest := List Nat

/-- Character data of a string literal (used to write concrete paths). -/
def pchars (s : String) : Path := s.data

/-- Split a character list on a separator character (like `str.split("/")`). -/
def splitOnChar (sep : Char) : List Char → List (List Char)
  | [] => [[]]
  | c :: cs =>
    let r := splitOnChar sep cs
    if c = sep then [] :: r
    else
      match r with
      | [] => [[c]]
      | h :: t => (c :: h) :: t

/-- The components of a path between `/` separators. -/
def pathParts (p : Path) : List (List Char) := splitOnChar '/' p

/-- `os.path.basename`: the final path component. -/
def basenameP (p : Path) : List Char := (pathParts p).getLastD []

/-- `os.path.dirname`: everything before the final component. -/
def dirnameP (p : Path) : Path := List.intercalate (pchars "/") (pathParts p).dropLast

/-- Index of the last `.` in a name, if any. -/
def lastDotIdx (cs : List Char) : Option Nat :=
  ((cs.enum.filter (fun x => x.2 = '.')).getLast?).map (fun x => x.1)

/-- `os.path.splitext` on a bare file name: split at the last dot, unless
every character before that dot is itself a dot (so `.bashrc` has no
extension), returning `(root, extension-with-dot)`. -/
def splitextName (name : List Char) : List Char × List Char :=
  match lastDotIdx name with
  | none => (name, [])
  | some i =>
    if (name.take i).any (fun c => c ≠ '.') then (name.take i, name.drop i)
    else (name, [])

/-- `os.path.splitext` on a full path: the dot is searched only in the
final component. -/
def splitextP (p : Path) : Path × Path :=
  let d := dirnameP p
  let (root, ext) := splitextName (basenameP p)
  (if d = [] then root else d ++ pchars "/" ++ root, ext)

/-- Lower-case a path, as Python `str.lower()` on ASCII names. -/
def lowerP (p : Path) : Path := p.map Char.toLower

/-- `pathlib.Path.suffix` is nonempty exactly when `splitextName` finds an
extension; `MapInfoGroup._get_base_path` strips suffixes while one exists.
Fuel-based recursion (the name length strictly bounds the number of
strippable suffixes). -/
def stripSuffixAux : Nat → List Char → List Char
  | 0, s => s
  | n + 1, s =>
    let (root, ext) := splitextName s
    if ext = [] then s else stripSuffixAux n root

/-- `MapInfoGroup._get_base_path`: strip all recognized trailing
extensions from the final component (`map.v1.tab` becomes `map`). -/
def getBasePathP (p : Path) : Path :=
  let d := dirnameP p
  let stripped := stripSuffixAux (basenameP p).length (basenameP p)
  if d = [] then stripped else d ++ pchars "/" ++ stripped

/-- `os.path.join` for the two-step joins the code performs (the code
never joins absolute right operands). -/
def joinP (a b : Path) : Path := if a = [] then b else a ++ pchars "/" ++ b

/-- `os.path.relpath p base` for the cases the code exercises: `p` is the
base itself (relative path `.`) or lies strictly below it. -/
def relpathP (p base : Path) : Path :=
  if p = base then pchars "."
  else if List.isPrefixOf (base ++ pchars "/") p then p.drop (base.length + 1)
  else p

/-- Result of an `os.path.getctime` call: a creation time, a
FileNotFoundError (the path does not exist), or another OSError such as
permission denied. -/
inductive CtimeRes
  | found (t : Nat)
  | missing
  | denied
deriving DecidableEq

/-- The filesystem state visible to the engine. `listing` holds the
existing files in the order directory enumeration returns them;
`read p = none` models an unreadable file; `copyOk dst` says whether a
copy to `dst` (including `os.makedirs`) succeeds. -/
structure FS where
  listing : List Path
  read : Path → Option Content
  ctime : Path → CtimeRes
  copyOk : Path → Bool

/-- Add (or overwrite) a file created by a successful copy; a fresh file
gets some definite creation time. -/
def FS.setFile (fs : FS) (p : Path) (c : Content) : FS :=
  { listing := if fs.listing.contains p then fs.listing else fs.listing ++ [p]
    read := fun q => if q = p then some c else fs.read q
    ctime := fun q => if q = p then .found 0 else fs.ctime q
    copyOk := fs.copyOk }

/-- Remove a file (after `os.remove`). -/
def FS.remove (fs : FS) (p : Path) : FS :=
  { listing := fs.listing.filter (fun q => q ≠ p)
    read := fun q => if q = p then none else fs.read q
    ctime := fun q => if q = p then .missing else fs.ctime q
    copyOk := fs.copyOk }

/- === Extension tables (verbatim from the configuration section) === -/

/-- `SHAPEFILE_EXTENSIONS` (already lower-case). -/
def shapefileExtensions : List Path :=
  [pchars ".shp", pchars ".shx", pchars ".dbf", pchars ".prj", pchars ".cpg",
   pchars ".sbn", pchars ".sbx", pchars ".shp.xml"]

/-- `IMAGEFILE_EXTENSIONS` (already lower-case). -/
def imagefileExtensions : List Path :=
  [pchars ".tif", pchars ".jpg", pchars ".tfw", pchars ".aux.xml", pchars ".ovr",
   pchars ".rrd", pchars ".prj", pchars ".tif.xml", pchars ".tif.aux.xml",
   pchars ".tif.ovr", pchars ".grd", pchars ".jpeg", pchars ".png",
   pchars ".png.xml", pchars ".gif", pchars ".bmp", pchars ".tiff",
   pchars ".img", pchars ".jp2", pchars ".crf", pchars ".psd", pchars ".ora",
   pchars ".bt", pchars ".dt2", pchars ".ecw", pchars ".dat", pchars ".lgg",
   pchars ".asc", pchars ".hdr", pchars ".bip", pchars ".bil", pchars ".clr",
   pchars ".stx", pchars ".bag", pchars ".tff", pchars ".raw", pchars ".ers"]

/-- `MAPINFO_EXTENSIONS`. -/
def mapinfoExtensions : List Path :=
  [pchars ".tab", pchars ".dat", pchars ".dbf", pchars ".map", pchars ".id",
   pchars ".ind", pchars ".mif", pchars ".mid", pchars ".wor", pchars ".gml",
   pchars ".tab.xml"]

/-- `GDB_EXTENSIONS`. -/
def gdbExtensions : List Path :=
  [pchars ".gdb", pchars ".geodatabase", pchars ".mdb", pchars ".accdb",
   pchars ".sde"]

/-- `NON_GIS_DB_EXTENSIONS`. -/
def nonGisDbExtensions : List Path := [pchars ".sqlite", pchars ".sql"]

/-- `PACKAGE_EXTENSIONS`. -/
def packageExtensions : List Path :=
  [pchars ".mpk", pchars ".mpkx", pchars ".lpk", pchars ".lpkx"]

/-- `ZIP_EXTENSIONS`. -/
def zipExtensions : List Path := [pchars ".zip", pchars ".7z"]

/-- The `known_exts` set built by `_process_generic_files` (membership in
the union of all extension lists). -/
def knownExts : List Path :=
  shapefileExtensions ++ imagefileExtensions ++ mapinfoExtensions ++
  gdbExtensions ++ nonGisDbExtensions ++ packageExtensions ++ zipExtensions

/- === Audit trail and the primitive file operations === -/

/-- One entry of the global `actions_log`:
`["Copied"|"Deleted", source, destination, extension]`. -/
structure ActionRec where
  action : List Char
  src : Path
  dst : Path
  ftype : List Char
deriving DecidableEq

/-- The `"Copied"` action tag. -/
def copiedTag : List Char := pchars "Copied"

/-- The `"Deleted"` action tag. -/
def deletedTag : List Char := pchars "Deleted"

/-- Engine state threaded through a run: the live filesystem and the
global `actions_log`. -/
abbrev St := FS × List ActionRec

/-- `copy_file(src, dst, logger)`: `os.makedirs` + `shutil.copy2`; on
success appends `["Copied", src, dst, splitext(src)[1]]` to the log; any
exception is caught (logged only), leaving filesystem and log unchanged.
A copy succeeds when the source exists (is listed) and the destination is
writable. -/
def copyFile (st : St) (src dst : Path) : St :=
  match st.1.read src with
  | some c =>
    if st.1.copyOk dst then
      (st.1.setFile dst c, st.2 ++ [⟨copiedTag, src, dst, (splitextP src).2⟩])
    else st
  | none => st

/-- `delete_file(path, logger)`: `os.remove`; on success appends
`["Deleted", path, "", splitext(path)[1]]`; an exception (file absent) is
caught, leaving everything unchanged. -/
def deleteFile (st : St) (p : Path) : St :=
  if st.1.listing.contains p then
    (st.1.remove p, st.2 ++ [⟨deletedTag, p, [], (splitextP p).2⟩])
  else st

/-- The header row of the CSV report. -/
def headerRow : List (List Char) :=
  [pchars "Action", pchars "Source", pchars "Destination", pchars "File Type"]

/-- The row written for one log record. -/
def recRow (r : ActionRec) : List (List Char) := [r.action, r.src, r.dst, r.ftype]

/-- `write_csv_report`: header row followed by one row per `actions_log`
record, in order. -/
def writeCsvReport (log : List ActionRec) : List (List (List Char)) :=
  headerRow :: log.map recRow

/- === Creation-time keys and the stable sort === -/

/-- The value `_safe_ctime` yields when it returns: a finite timestamp or
`float("inf")`. -/
inductive SortKey
  | fin (t : Nat)
  | inf
deriving DecidableEq

/-- Strict comparison of sort keys (`float` `<` with infinity). -/
def keyLT : SortKey → SortKey → Bool
  | .fin a, .fin b => a < b
  | .fin _, .inf => true
  | .inf, _ => false

/-- `_safe_ctime(path)`: `os.path.getctime`, with `FileNotFoundError`
mapped to infinity; any other OSError (e.g. permission denied) is NOT
caught and propagates. -/
def safeCtime (fs : FS) (p : Path) : Except Unit SortKey :=
  match fs.ctime p with
  | .found t => .ok (.fin t)
  | .missing => .ok .inf
  | .denied => .error ()

/-- Stable insertion into a sorted list: the new element goes after every
element strictly smaller than it and before the first element not
smaller, so elements with equal keys keep their original relative order
(the element being inserted is the earlier one in the original list). -/
def sInsert {α : Type} (lt : α → α → Bool) (a : α) : List α → List α
  | [] => [a]
  | b :: l => if lt b a then b :: sInsert lt a l else a :: b :: l

/-- `list.sort` is a stable sort; `stableSort lt` realizes it for the
strict comparison `lt`. -/
def stableSort {α : Type} (lt : α → α → Bool) : List α → List α
  | [] => []
  | a :: l => sInsert lt a (stableSort lt l)

/-- Strict order on key-decorated artifacts: compare the precomputed
`_safe_ctime` keys only (the decoration `sort(key=...)` performs). -/
def pairLT {α : Type} (p q : SortKey × α) : Bool := keyLT p.1 q.1

/-- `group.sort(key=lambda x: _safe_ctime(...))` on the key-decorated
group. -/
def sortedKeyed {α : Type} (keyed : List (SortKey × α)) : List (SortKey × α) :=
  stableSort pairLT keyed

/- === Artifacts (the handler classes) and family strategies === -/

/-- One handler object: the path used for sorting and "retaining" messages
(`base_path`, or `file_path` for `PackageFile`), and the member files it
claims, in discovery order. -/
structure Artifact where
  keyPath : Path
  files : List Path
deriving DecidableEq

/-- `glob(base + ".*")`: listed files extending `base` by a dot plus any
characters without a further path separator. -/
def globDotStar (fs : FS) (base : Path) : List Path :=
  fs.listing.filter
    (fun p => List.isPrefixOf (base ++ pchars ".") p ∧ ¬ (p.drop (base.length + 1)).contains '/')

/-- `glob(base + "*")`: listed files extending `base` by any characters
without a path separator. -/
def globStar (fs : FS) (base : Path) : List Path :=
  fs.listing.filter
    (fun p => List.isPrefixOf base p ∧ ¬ (p.drop base.length).contains '/')

/-- `glob(pattern)` for a wildcard-free pattern: the path itself when it
exists. -/
def globLit (fs : FS) (p : Path) : List Path :=
  if fs.listing.contains p then [p] else []

/-- `ShapefileGroup.__init__`: base path by `splitext`, members are the
`glob(base + ".*")` matches whose `splitext` extension (lower-cased) is a
shapefile extension. -/
def shapefileGroup (fs : FS) (shpPath : Path) : Artifact :=
  let base := (splitextP shpPath).1
  { keyPath := base
    files := (globDotStar fs base).filter
      (fun f => shapefileExtensions.contains (lowerP (splitextP f).2)) }

/-- `ImageGroup.__init__`: base path by `splitext`, members are the
`glob(base + "*")` matches whose lower-cased full path ends with an image
extension. -/
def imageGroup (fs : FS) (filePath : Path) : Artifact :=
  let base := (splitextP filePath).1
  { keyPath := base
    files := (globStar fs base).filter
      (fun f => imagefileExtensions.any (fun e => List.isSuffixOf e (lowerP f))) }

/-- `MapInfoGroup.__init__` / `_gather_components`: base path strips all
suffixes; for each MapInfo extension, collect `glob(base + ext)` and the
compound `glob(base + ext + ".xml")`, in extension-list order. -/
def mapInfoGroup (fs : FS) (tabPath : Path) : Artifact :=
  let base := getBasePathP tabPath
  { keyPath := base
    files := mapinfoExtensions.foldl
      (fun acc ext => acc ++ globLit fs (base ++ ext) ++ globLit fs (base ++ ext ++ pchars ".xml"))
      [] }

/-- `PackageFile` / `ZipFileHandler` / `NonGISDatabase`: a single atomic
file; the sort path is the file itself. -/
def singleFileHandler (_fs : FS) (filePath : Path) : Artifact :=
  { keyPath := filePath, files := [filePath] }

/-- `GenericFile.__init__`: base path by `splitext`, members are every
listed file matching `glob(base + "*")` (the `os.path.isfile` filter is
the identity here because the listing holds only plain files). -/
def genericFile (fs : FS) (filePath : Path) : Artifact :=
  let base := (splitextP filePath).1
  { keyPath := base, files := globStar fs base }

/- === Hashing === -/

/-- Bytes contributed by one member: a failed read is logged and skipped,
contributing nothing. -/
def readD (fs : FS) (p : Path) : Content := (fs.read p).getD []

/-- `ShapefileGroup.hash` / `ImageGroup.hash` / `GenericFile.hash`: one
running digest over the members in their stored (enumeration) order;
read errors skip that member; the hex digest is always returned. -/
def groupHash (fs : FS) (a : Artifact) : Option Digest :=
  some (a.files.foldl (fun acc f => acc ++ readD fs f) [])

/-- `MapInfoGroup.hash`: like `groupHash` but over `sorted(self.files)`
(lexicographic path order). -/
def mapInfoHash (fs : FS) (a : Artifact) : Option Digest :=
  some ((a.files.insertionSort (· ≤ ·)).foldl (fun acc f => acc ++ readD fs f) [])

/-- `get_file_hash`: digest of the file's bytes, or `None` when reading
raises. -/
def getFileHash (fs : FS) (p : Path) : Option Digest := fs.read p

/-- Hash used by the three atomic handler classes. -/
def singleFileHash (fs : FS) (a : Artifact) : Option Digest := getFileHash fs a.keyPath

/- === Family strategies === -/

/-- One family pass: the entry-point test on a bare file name, the
handler construction, the hash method, and whether consolidation goes
through `_process_files` (which guards on a falsy sort path). -/
structure Family where
  isEntry : List Char → Bool
  build : FS → Path → Artifact
  hash : FS → Artifact → Option Digest
  guarded : Bool

/-- `_process_shapefiles` scan: entry points are files whose lower-cased
name ends in `.shp`. -/
def shapefileFamily : Family :=
  { isEntry := fun name => List.isSuffixOf (pchars ".shp") (lowerP name)
    build := shapefileGroup
    hash := groupHash
    guarded := false }

/-- `_process_mapinfo` scan: entry points end in `.tab`. -/
def mapinfoFamily : Family :=
  { isEntry := fun name => List.isSuffixOf (pchars ".tab") (lowerP name)
    build := mapInfoGroup
    hash := mapInfoHash
    guarded := false }

/-- `_process_files(ImageGroup, IMAGEFILE_EXTENSIONS, "Image")`. -/
def imageFamily : Family :=
  { isEntry := fun name => imagefileExtensions.any (fun e => List.isSuffixOf e (lowerP name))
    build := imageGroup
    hash := groupHash
    guarded := true }

/-- `_process_files(PackageFile, PACKAGE_EXTENSIONS, "Package")`. -/
def packageFamily : Family :=
  { isEntry := fun name => packageExtensions.any (fun e => List.isSuffixOf e (lowerP name))
    build := singleFileHandler
    hash := singleFileHash
    guarded := true }

/-- `_process_files(ZipFileHandler, ZIP_EXTENSIONS, "ZIP")`. -/
def zipFamily : Family :=
  { isEntry := fun name => zipExtensions.any (fun e => List.isSuffixOf e (lowerP name))
    build := singleFileHandler
    hash := singleFileHash
    guarded := true }

/-- `_process_files(NonGISDatabase, NON_GIS_DB_EXTENSIONS, ...)`. -/
def nonGisFamily : Family :=
  { isEntry := fun name => nonGisDbExtensions.any (fun e => List.isSuffixOf e (lowerP name))
    build := singleFileHandler
    hash := singleFileHash
    guarded := true }

/-- `_process_generic_files` scan: entry points are files whose
`splitext` extension (lower-cased) is NOT a known GIS extension. -/
def genericFamily : Family :=
  { isEntry := fun name => ¬ knownExts.contains (lowerP (splitextName name).2)
    build := genericFile
    hash := groupHash
    guarded := false }

/- === Scanning, fingerprint buckets, and consolidation === -/

/-- The files `os.walk(input_folder)` yields, in listing order. -/
def walkFiles (fs : FS) (input : Path) : List Path :=
  fs.listing.filter (fun p => List.isPrefixOf (input ++ pchars "/") p)

/-- The handler objects a family pass constructs, one per walked file
passing the entry test, in walk order. -/
def scanArtifacts (fs : FS) (fam : Family) (input : Path) : List Artifact :=
  ((walkFiles fs input).filter (fun p => fam.isEntry (basenameP p))).map (fam.build fs)

/-- Append an artifact to its fingerprint bucket (`defaultdict(list)`,
buckets in first-insertion order, artifacts in append order). -/
def insertBucket (bs : List (Digest × List Artifact)) (h : Digest) (a : Artifact) :
    List (Digest × List Artifact) :=
  match bs with
  | [] => [(h, [a])]
  | (k, v) :: rest =>
    if k = h then (k, v ++ [a]) :: rest else (k, v) :: insertBucket rest h a

/-- The fingerprint buckets a family scan builds: artifacts whose hash is
truthy (a hex digest, never the empty string) are bucketed; a `None` hash
drops the artifact (`if file_hash:`). -/
def scanBuckets (fs : FS) (fam : Family) (input : Path) : List (List Artifact) :=
  ((scanArtifacts fs fam input).foldl
    (fun bs a =>
      match fam.hash fs a with
      | some h => insertBucket bs h a
      | none => bs)
    []).map (fun b => b.2)

/-- The destination mirrored under the output root for one member file:
`join(output_folder, relpath(dirname(f), input_folder), basename(f))`. -/
def dstOf (input output f : Path) : Path :=
  joinP (joinP output (relpathP (dirnameP f) input)) (basenameP f)

/-- Consolidating one duplicate artifact (`dup.copy_to(...)` then
`dup.delete()`): copy every member to the output root, then delete every
member; both loops run unconditionally and each member failure is caught
inside `copy_file` / `delete_file`. -/
def consolidate (input output : Path) (st : St) (a : Artifact) : St :=
  let st1 := a.files.foldl (fun s f => copyFile s f (dstOf input output f)) st
  a.files.foldl (fun s f => deleteFile s f) st1

/-- The `_process_files` variant, which first skips a duplicate whose
sort path is falsy (`if not dup_path: continue`). -/
def consolidateGuarded (input output : Path) (st : St) (a : Artifact) : St :=
  if a.keyPath = [] then st else consolidate input output st a

/-- Processing one fingerprint bucket: nothing below size two; otherwise
decorate with `_safe_ctime` keys (a denied lookup raises), stable-sort,
retain the head as original, and consolidate the tail in order. -/
def processGroup (cons : St → Artifact → St) (st : St) (g : List Artifact) :
    Except Unit St :=
  if g.length > 1 then do
    let keyed ← g.mapM (fun a => do
      let k ← safeCtime st.1 a.keyPath
      pure (k, a))
    pure ((((sortedKeyed keyed).map (fun p => p.2)).tail).foldl cons st)
  else pure st

/-- Processing every bucket of a pass, in bucket order. -/
def processClusters (cons : St → Artifact → St) (st : St)
    (buckets : List (List Artifact)) : Except Unit St :=
  buckets.foldlM (processGroup cons) st

/-- One full family pass: scan, bucket, then process, with the
consolidation variant the pass uses. -/
def runPass (input output : Path) (st : St) (fam : Family) : Except Unit St :=
  processClusters
    (if fam.guarded then consolidateGuarded input output else consolidate input output)
    st (scanBuckets st.1 fam input)

/-- `DuplicateProcessor.run_all`: the family passes in source order, with
no per-family exception handling (the `_process_gdbs` call is commented
out in the source). -/
def runAll (fs : FS) (input output : Path) : Except Unit St := do
  let st ← runPass input output (fs, []) shapefileFamily
  let st ← runPass input output st mapinfoFamily
  let st ← runPass input output st imageFamily
  let st ← runPass input output st packageFamily
  let st ← runPass input output st zipFamily
  let st ← runPass input output st nonGisFamily
  runPass input output st genericFamily

/-- `main()`: run all passes, then write the CSV report from the final
log; an exception escaping `run_all` skips the report entirely. -/
def mainRun (fs : FS) (input output : Path) :
    Except Unit (List (List (List Char)) × St) := do
  let st ← runAll fs input output
  pure (writeCsvReport st.2, st)

/-- The final listing of a completed run (for stating concrete results). -/
def resListing (r : Except Unit St) : Option (List Path) :=
  r.toOption.map (fun st => st.1.listing)

/-- The final action log of a completed run. -/
def resLog (r : Except Unit St) : Option (List ActionRec) :=
  r.toOption.map (fun st => st.2)

/- === Concrete input trees used to settle the claims === -/

/-- Two byte-identical generic files under the input root while every
destination write fails (models an unwritable output share). -/
def fsCopyFail : FS :=
  { listing := [pchars "in/a/x.txt", pchars "in/b/x.txt"]
    read := fun p =>
      if p = pchars "in/a/x.txt" then some [7]
      else if p = pchars "in/b/x.txt" then some [7] else none
    ctime := fun _ => .missing
    copyOk := fun _ => false }

/-- A lone shapefile whose only component exists but cannot be read
(permission denied). -/
def fsUnreadableShp : FS :=
  { listing := [pchars "in/p.shp"]
    read := fun _ => none
    ctime := fun _ => .missing
    copyOk := fun _ => true }

/-- A lone ZIP archive that cannot be read. -/
def fsUnreadableZip : FS :=
  { listing := [pchars "in/q.zip"]
    read := fun _ => none
    ctime := fun _ => .missing
    copyOk := fun _ => true }

/-- Two byte-identical generic files whose member paths have creation
times (`a` older) but whose extension-stripped base paths do not exist,
with the walk enumerating `b` first. -/
def fsTwoTxt : FS :=
  { listing := [pchars "in/b/x.txt", pchars "in/a/x.txt"]
    read := fun p =>
      if p = pchars "in/b/x.txt" then some [7]
      else if p = pchars "in/a/x.txt" then some [7] else none
    ctime := fun p =>
      if p = pchars "in/a/x.txt" then .found 1
      else if p = pchars "in/b/x.txt" then .found 2 else .missing
    copyOk := fun _ => true }

/-- The artifact the generic pass builds for `in/a/x.txt` on `fsTwoTxt`. -/
def artGenA : Artifact := genericFile fsTwoTxt (pchars "in/a/x.txt")

/-- The artifact the generic pass builds for `in/b/x.txt` on `fsTwoTxt`. -/
def artGenB : Artifact := genericFile fsTwoTxt (pchars "in/b/x.txt")

/-- Two shapefile artifacts with byte-identical member sets: the contents
`[1]` and `[2]` are assigned to `p.shp`/`p.dbf` and (swapped) to
`q.dbf`/`q.shp`. -/
def fsSwapped : FS :=
  { listing := [pchars "in/p.shp", pchars "in/p.dbf",
                pchars "in/q.shp", pchars "in/q.dbf"]
    read := fun p =>
      if p = pchars "in/p.shp" then some [1]
      else if p = pchars "in/p.dbf" then some [2]
      else if p = pchars "in/q.shp" then some [2]
      else if p = pchars "in/q.dbf" then some [1] else none
    ctime := fun _ => .missing
    copyOk := fun _ => true }

/-- The shapefile artifact rooted at `in/p.shp` on `fsSwapped`. -/
def artShpP : Artifact := shapefileGroup fsSwapped (pchars "in/p.shp")

/-- The shapefile artifact rooted at `in/q.shp` on `fsSwapped`. -/
def artShpQ : Artifact := shapefileGroup fsSwapped (pchars "in/q.shp")

/-- A MapInfo-style tree used to instantiate the permutation invariance
of `MapInfoGroup.hash`. -/
def fsMapinfo : FS :=
  { listing := [pchars "in/m.tab", pchars "in/m.dat"]
    read := fun p =>
      if p = pchars "in/m.tab" then some [3]
      else if p = pchars "in/m.dat" then some [4] else none
    ctime := fun _ => .missing
    copyOk := fun _ => true }

/-- One raster dataset: a `.tif` with its `.tfw` world-file sidecar
(no duplicate of it anywhere in the tree). -/
def fsImagePair : FS :=
  { listing := [pchars "in/foo.tif", pchars "in/foo.tfw"]
    read := fun p =>
      if p = pchars "in/foo.tif" then some [1]
      else if p = pchars "in/foo.tfw" then some [2] else none
    ctime := fun _ => .missing
    copyOk := fun _ => true }

/-- Two byte-identical rasters whose identity path `in/a` answers the
creation-time lookup with a non-FileNotFoundError OSError, plus a pair
of generic duplicates awaiting the (later) generic pass. -/
def fsDeniedCtime : FS :=
  { listing := [pchars "in/a.tif", pchars "in/b.tif",
                pchars "in/c.txt", pchars "in/d.txt"]
    read := fun p =>
      if p = pchars "in/a.tif" then some [1]
      else if p = pchars "in/b.tif" then some [1]
      else if p = pchars "in/c.txt" then some [2]
      else if p = pchars "in/d.txt" then some [2] else none
    ctime := fun p => if p = pchars "in/a" then .denied else .missing
    copyOk := fun _ => true }

/-- Three byte-identical generic files where `in/d1/s1.txt` and
`in/d1/s1x.txt` share a base-path prefix, so the group built for
`s1.txt` also claims `s1x.txt`. -/
def fsOverlap : FS :=
  { listing := [pchars "in/d2/w.txt", pchars "in/d1/s1.txt", pchars "in/d1/s1x.txt"]
    read := fun p =>
      if p = pchars "in/d2/w.txt" then some [0]
      else if p = pchars "in/d1/s1.txt" then some [0]
      else if p = pchars "in/d1/s1x.txt" then some [0] else none
    ctime := fun _ => .missing
    copyOk := fun _ => true }

/-- The state the engine leaves after one full run on `fsOverlap`. -/
def fsOverlapAfter : FS :=
  match runAll fsOverlap (pchars "in") (pchars "out") with
  | .ok st => st.1
  | .error _ => fsOverlap

/-- Two byte-identical generic files, everything healthy. -/
def fsAudit : FS :=
  { listing := [pchars "in/a/x.txt", pchars "in/b/x.txt"]
    read := fun p =>
      if p = pchars "in/a/x.txt" then some [7]
      else if p = pchars "in/b/x.txt" then some [7] else none
    ctime := fun _ => .missing
    copyOk := fun _ => true }

/-- A healthy single-file tree used by several witnesses. -/
def fsPlain : FS :=
  { listing := [pchars "in/z.txt"]
    read := fun p => if p = pchars "in/z.txt" then some [9] else none
    ctime := fun _ => .missing
    copyOk := fun _ => true }

/-- Two single-member artifacts whose identity paths have obtainable
creation times (used to instantiate survivor selection). -/
def fsTimed : FS :=
  { listing := [pchars "in/u.mpk", pchars "in/v.mpk"]
    read := fun p =>
      if p = pchars "in/u.mpk" then some [5]
      else if p = pchars "in/v.mpk" then some [5] else none
    ctime := fun p =>
      if p = pchars "in/u.mpk" then .found 2
      else if p = pchars "in/v.mpk" then .found 1 else .missing
    copyOk := fun _ => true }

/-- The package artifact for `in/u.mpk`. -/
def artPkgU : Artifact := singleFileHandler fsTimed (pchars "in/u.mpk")

/-- The package artifact for `in/v.mpk`. -/
def artPkgV : Artifact := singleFileHandler fsTimed (pchars "in/v.mpk")

/- === General lemmas about the stable sort === -/

theorem sInsert_perm {α : Type} (lt : α → α → Bool) (a : α) (l : List α) :
    List.Perm (sInsert lt a l) (a :: l) := by
  induction l with
  | nil => simp [sInsert]
  | cons b t ih =>
    simp only [sInsert]
    split
    · exact (ih.cons b).trans (List.Perm.swap a b t)
    · exact List.Perm.refl _

theorem stableSort_perm {α : Type} (lt : α → α → Bool) (l : List α) :
    List.Perm (stableSort lt l) l := by
  induction l with
  | nil => simp [stableSort]
  | cons a t ih => exact (sInsert_perm lt a _).trans (ih.cons a)

theorem pairwise_sInsert {α : Type} {lt : α → α → Bool}
    (hasym : ∀ x y, lt x y = true → lt y x = false)
    (hneg : ∀ x y z, lt x y = false → lt y z = false → lt x z = false)
    (a : α) (l : List α) (hl : l.Pairwise (fun x y => lt y x = false)) :
    (sInsert lt a l).Pairwise (fun x y => lt y x = false) := by
  induction l with
  | nil => simp [sInsert]
  | cons b t ih =>
    rw [List.pairwise_cons] at hl
    obtain ⟨hb, ht⟩ := hl
    simp only [sInsert]
    split
    · rename_i hba
      rw [List.pairwise_cons]
      refine ⟨?_, ih ht⟩
      intro y hy
      rcases List.mem_cons.mp ((sInsert_perm lt a t).mem_iff.mp hy) with rfl | hy2
      · exact hasym _ _ hba
      · exact hb y hy2
    · rename_i hba
      rw [List.pairwise_cons]
      refine ⟨?_, by rw [List.pairwise_cons]; exact ⟨hb, ht⟩⟩
      intro y hy
      rcases List.mem_cons.mp hy with rfl | hy2
      · simpa using hba
      · exact hneg y b a (hb y hy2) (by simpa using hba)

theorem pairwise_stableSort {α : Type} {lt : α → α → Bool}
    (hasym : ∀ x y, lt x y = true → lt y x = false)
    (hneg : ∀ x y z, lt x y = false → lt y z = false → lt x z = false)
    (l : List α) :
    (stableSort lt l).Pairwise (fun x y => lt y x = false) := by
  induction l with
  | nil => simp [stableSort]
  | cons a t ih => exact pairwise_sInsert hasym hneg a _ ih

theorem keyLT_irrefl (x : SortKey) : keyLT x x = false := by
  cases x <;> simp [keyLT]

theorem keyLT_asymm (x y : SortKey) : keyLT x y = true → keyLT y x = false := by
  cases x <;> cases y <;> simp [keyLT] <;> omega

theorem keyLT_negtrans (x y z : SortKey) :
    keyLT x y = false → keyLT y z = false → keyLT x z = false := by
  cases x <;> cases y <;> cases z <;> simp [keyLT] <;> omega

theorem pairLT_asymm {α : Type} (x y : SortKey × α) :
    pairLT x y = true → pairLT y x = false :=
  keyLT_asymm x.1 y.1

theorem pairLT_negtrans {α : Type} (x y z : SortKey × α) :
    pairLT x y = false → pairLT y z = false → pairLT x z = false :=
  keyLT_negtrans x.1 y.1 z.1

theorem filter_sInsert_key {α : Type} (v : SortKey) (a : SortKey × α)
    (l : List (SortKey × α)) :
    (sInsert pairLT a l).filter (fun p => decide (p.1 = v)) =
      if a.1 = v then a :: l.filter (fun p => decide (p.1 = v))
      else l.filter (fun p => decide (p.1 = v)) := by
  induction l with
  | nil => by_cases h : a.1 = v <;> simp [sInsert, h]
  | cons b t ih =>
    simp only [sInsert]
    by_cases hba : pairLT b a = true
    · by_cases hav : a.1 = v
      · have hbv : ¬ b.1 = v := by
          intro hbv
          have h1 : keyLT b.1 a.1 = true := hba
          rw [hbv, hav, keyLT_irrefl] at h1
          simp at h1
        simp [hba, List.filter_cons, ih, hav, hbv]
      · simp [hba, List.filter_cons, ih, hav]
    · have hba2 : pairLT b a = false := by simpa using hba
      by_cases hav : a.1 = v
      · simp [hba2, List.filter_cons, hav]
      · simp [hba2, List.filter_cons, hav]

theorem sortedKeyed_stable {α : Type} (keyed : List (SortKey × α)) (v : SortKey) :
    (sortedKeyed keyed).filter (fun p => decide (p.1 = v)) =
      keyed.filter (fun p => decide (p.1 = v)) := by
  induction keyed with
  | nil => simp [sortedKeyed, stableSort]
  | cons a t ih =>
    show (sInsert pairLT a (stableSort pairLT t)).filter _ = _
    rw [filter_sInsert_key]
    by_cases hav : a.1 = v
    · rw [if_pos hav, List.filter_cons, if_pos (by simpa using hav)]
      exact congrArg _ ih
    · rw [if_neg hav, List.filter_cons, if_neg (by simpa using hav)]
      exact ih

theorem sortedKeyed_sorted {α : Type} (keyed : List (SortKey × α)) :
    (sortedKeyed keyed).Pairwise (fun x y => pairLT y x = false) :=
  pairwise_stableSort pairLT_asymm pairLT_negtrans keyed

theorem sortedKeyed_perm {α : Type} (keyed : List (SortKey × α)) :
    List.Perm (sortedKeyed keyed) keyed :=
  stableSort_perm pairLT keyed

theorem sortedKeyed_head_min {α : Type} (keyed : List (SortKey × α))
    (s : SortKey × α) (hs : (sortedKeyed keyed).head? = some s) :
    ∀ p ∈ keyed, keyLT p.1 s.1 = false := by
  intro p hp
  have hmem : p ∈ sortedKeyed keyed := (sortedKeyed_perm keyed).symm.subset hp
  have hpw := sortedKeyed_sorted keyed
  generalize hsk : sortedKeyed keyed = L at hs hmem hpw
  cases L with
  | nil => simp at hs
  | cons s0 rest =>
    have hs0 : s0 = s := by simpa using hs
    rw [List.pairwise_cons] at hpw
    rcases List.mem_cons.mp hmem with rfl | h2
    · rw [hs0]; exact keyLT_irrefl _
    · have h3 : pairLT p s0 = false := hpw.1 p h2
      rw [hs0] at h3
      exact h3

/- === Fold / bucket invariants === -/

theorem foldl_invariant {σ β : Type} (Inv : σ → Prop) (f : σ → β → σ)
    (hstep : ∀ s b, Inv s → Inv (f s b)) :
    ∀ (l : List β) (s : σ), Inv s → Inv (l.foldl f s) := by
  intro l
  induction l with
  | nil => intro s hs; simpa using hs
  | cons b t ih => intro s hs; exact ih (f s b) (hstep s b hs)

theorem foldlM_invariant {σ β : Type} (Inv : σ → Prop)
    (f : σ → β → Except Unit σ)
    (hstep : ∀ s b, Inv s → ∃ s2, f s b = .ok s2 ∧ Inv s2) :
    ∀ (l : List β) (s : σ), Inv s →
      ∃ s2, l.foldlM f s = .ok s2 ∧ Inv s2 := by
  intro l
  induction l with
  | nil => intro s hs; exact ⟨s, rfl, hs⟩
  | cons b t ih =>
    intro s hs
    obtain ⟨s1, hf, h1⟩ := hstep s b hs
    obtain ⟨s2, hrest, h2⟩ := ih s1 h1
    refine ⟨s2, ?_, h2⟩
    rw [List.foldlM_cons, hf]
    exact hrest

theorem mem_insertBucket {Q : Artifact → Prop}
    (bs : List (Digest × List Artifact)) (h : Digest) (x : Artifact)
    (hbs : ∀ b ∈ bs, ∀ a ∈ b.2, Q a) (hx : Q x) :
    ∀ b ∈ insertBucket bs h x, ∀ a ∈ b.2, Q a := by
  induction bs with
  | nil =>
    intro b hb a ha
    simp only [insertBucket, List.mem_singleton] at hb
    subst hb
    simp only [List.mem_singleton] at ha
    subst ha
    exact hx
  | cons kv rest ih =>
    intro b hb a ha
    simp only [insertBucket] at hb
    split at hb
    · rcases List.mem_cons.mp hb with rfl | hb2
      · rcases List.mem_append.mp ha with ha2 | ha2
        · exact hbs kv (List.mem_cons_self _ _) a ha2
        · rw [List.mem_singleton] at ha2; subst ha2; exact hx
      · exact hbs b (List.mem_cons_of_mem _ hb2) a ha
    · rcases List.mem_cons.mp hb with rfl | hb2
      · exact hbs kv (List.mem_cons_self _ _) a ha
      · exact ih (fun c hc => hbs c (List.mem_cons_of_mem _ hc)) b hb2 a ha

/-- Every artifact that lands in a fingerprint bucket has a truthy hash:
a `None` hash drops the artifact before bucketing. -/
theorem scanBuckets_hash_isSome (fs : FS) (fam : Family) (input : Path) :
    ∀ g ∈ scanBuckets fs fam input, ∀ a ∈ g, (fam.hash fs a).isSome := by
  have key : ∀ (arts : List Artifact) (bs : List (Digest × List Artifact)),
      (∀ b ∈ bs, ∀ a ∈ b.2, (fam.hash fs a).isSome) →
      ∀ b ∈ arts.foldl
          (fun bs a =>
            match fam.hash fs a with
            | some h => insertBucket bs h a
            | none => bs) bs,
        ∀ a ∈ b.2, (fam.hash fs a).isSome := by
    intro arts
    induction arts with
    | nil => intro bs hbs; exact hbs
    | cons x t ih =>
      intro bs hbs
      simp only [List.foldl_cons]
      cases hx : fam.hash fs x with
      | some h => exact ih _ (mem_insertBucket bs h x hbs (by simp [hx]))
      | none => exact ih bs hbs
  intro g hg a ha
  simp only [scanBuckets, List.mem_map] at hg
  obtain ⟨b, hb, rfl⟩ := hg
  exact key (scanArtifacts fs fam input) [] (by simp) b hb a ha

/- === Runs with no uncaught creation-time error always complete === -/

/-- No path in the tree answers its creation-time lookup with an OSError
other than FileNotFoundError; under this condition every failure the run
meets is one the code catches at file granularity. -/
def NoDenied (fs : FS) : Prop := ∀ p, fs.ctime p ≠ .denied

theorem noDenied_setFile {fs : FS} (h : NoDenied fs) (p : Path) (c : Content) :
    NoDenied (fs.setFile p c) := by
  intro q
  simp only [FS.setFile]
  split
  · simp
  · exact h q

theorem noDenied_remove {fs : FS} (h : NoDenied fs) (p : Path) :
    NoDenied (fs.remove p) := by
  intro q
  simp only [FS.remove]
  split
  · simp
  · exact h q

theorem noDenied_copyFile {st : St} (h : NoDenied st.1) (src dst : Path) :
    NoDenied (copyFile st src dst).1 := by
  unfold copyFile
  cases st.1.read src with
  | some c =>
    by_cases hc : st.1.copyOk dst = true
    · simp only [hc, if_true]
      exact noDenied_setFile h dst c
    · simp only [hc, if_false]
      exact h
  | none => exact h

theorem noDenied_deleteFile {st : St} (h : NoDenied st.1) (p : Path) :
    NoDenied (deleteFile st p).1 := by
  unfold deleteFile
  split
  · exact noDenied_remove h p
  · exact h

theorem noDenied_consolidate {input output : Path} {st : St}
    (h : NoDenied st.1) (a : Artifact) :
    NoDenied (consolidate input output st a).1 := by
  unfold consolidate
  refine foldl_invariant (fun s => NoDenied s.1)
    (fun s f => deleteFile s f) (fun s f hs => noDenied_deleteFile hs f) a.files _ ?_
  exact foldl_invariant (fun s => NoDenied s.1) _
    (fun s f hs => noDenied_copyFile hs f (dstOf input output f)) a.files st h

theorem noDenied_consolidateGuarded {input output : Path} {st : St}
    (h : NoDenied st.1) (a : Artifact) :
    NoDenied (consolidateGuarded input output st a).1 := by
  unfold consolidateGuarded
  split
  · exact h
  · exact noDenied_consolidate h a

theorem safeCtime_ok {fs : FS} (h : NoDenied fs) (p : Path) :
    ∃ k, safeCtime fs p = .ok k := by
  unfold safeCtime
  cases hc : fs.ctime p with
  | found t => exact ⟨.fin t, rfl⟩
  | missing => exact ⟨.inf, rfl⟩
  | denied => exact absurd hc (h p)

theorem mapM_keys_ok {fs : FS} (h : NoDenied fs) (g : List Artifact) :
    ∃ keyed, (g.mapM (fun a => do
      let k ← safeCtime fs a.keyPath
      pure (k, a))) = Except.ok keyed := by
  induction g with
  | nil => exact ⟨[], rfl⟩
  | cons a t ih =>
    obtain ⟨k, hk⟩ := safeCtime_ok h a.keyPath
    obtain ⟨rest, hrest⟩ := ih
    refine ⟨(k, a) :: rest, ?_⟩
    rw [List.mapM_cons]
    simp only [hk, hrest]
    rfl

theorem mapM_keys_spec (fs : FS) :
    ∀ (g : List Artifact) (keyed : List (SortKey × Artifact)),
      g.mapM (fun a => do
        let k ← safeCtime fs a.keyPath
        pure (k, a)) = Except.ok keyed →
      keyed.map (fun p => p.2) = g ∧
        ∀ p ∈ keyed, safeCtime fs p.2.keyPath = .ok p.1 := by
  intro g
  induction g with
  | nil =>
    intro keyed h
    have h2 : Except.ok ([] : List (SortKey × Artifact)) = Except.ok keyed := h
    obtain rfl := Except.ok.inj h2
    exact ⟨rfl, by simp⟩
  | cons a t ih =>
    intro keyed h
    rw [List.mapM_cons] at h
    cases hsc : safeCtime fs a.keyPath with
    | error e =>
      rw [hsc] at h
      have h2 : (Except.error e : Except Unit (List (SortKey × Artifact)))
          = Except.ok keyed := h
      exact Except.noConfusion h2
    | ok k =>
      rw [hsc] at h
      cases hmt : t.mapM (fun a => do
          let k2 ← safeCtime fs a.keyPath
          pure (k2, a)) with
      | error e =>
        rw [hmt] at h
        have h2 : (Except.error e : Except Unit (List (SortKey × Artifact)))
            = Except.ok keyed := h
        exact Except.noConfusion h2
      | ok rest =>
        rw [hmt] at h
        have h2 : Except.ok ((k, a) :: rest) = Except.ok keyed := h
        obtain rfl := Except.ok.inj h2
        obtain ⟨ht1, ht2⟩ := ih rest hmt
        refine ⟨by simp [ht1], ?_⟩
        intro p hp
        rcases List.mem_cons.mp hp with rfl | hp2
        · exact hsc
        · exact ht2 p hp2

theorem processGroup_ok {cons : St → Artifact → St}
    (hcons : ∀ s a, NoDenied s.1 → NoDenied (cons s a).1)
    {st : St} (h : NoDenied st.1) (g : List Artifact) :
    ∃ st2, processGroup cons st g = .ok st2 ∧ NoDenied st2.1 := by
  unfold processGroup
  by_cases hg : g.length > 1
  · simp only [hg, if_true]
    obtain ⟨keyed, hkeyed⟩ := mapM_keys_ok h g
    rw [hkeyed]
    refine ⟨_, rfl, ?_⟩
    exact foldl_invariant (fun s => NoDenied s.1) cons
      (fun s a hs => hcons s a hs) _ st h
  · simp only [hg, if_false]
    exact ⟨st, rfl, h⟩

theorem runPass_ok {input output : Path} {st : St}
    (h : NoDenied st.1) (fam : Family) :
    ∃ st2, runPass input output st fam = .ok st2 ∧ NoDenied st2.1 := by
  unfold runPass processClusters
  refine foldlM_invariant (fun s => NoDenied s.1) _ ?_ _ st h
  intro s g hs
  split
  · exact processGroup_ok (fun s2 a h2 => noDenied_consolidateGuarded h2 a) hs g
  · exact processGroup_ok (fun s2 a h2 => noDenied_consolidate h2 a) hs g

theorem runAll_ok {fs : FS} (h : NoDenied fs) (input output : Path) :
    ∃ st, runAll fs input output = .ok st := by
  obtain ⟨s1, h1, n1⟩ := @runPass_ok input output (fs, []) h shapefileFamily
  obtain ⟨s2, h2, n2⟩ := @runPass_ok input output s1 n1 mapinfoFamily
  obtain ⟨s3, h3, n3⟩ := @runPass_ok input output s2 n2 imageFamily
  obtain ⟨s4, h4, n4⟩ := @runPass_ok input output s3 n3 packageFamily
  obtain ⟨s5, h5, n5⟩ := @runPass_ok input output s4 n4 zipFamily
  obtain ⟨s6, h6, n6⟩ := @runPass_ok input output s5 n5 nonGisFamily
  obtain ⟨s7, h7, n7⟩ := @runPass_ok input output s6 n6 genericFamily
  refine ⟨s7, ?_⟩
  unfold runAll
  rw [h1]
  show runPass input output s1 mapinfoFamily >>= _ = _
  rw [h2]
  show runPass input output s2 imageFamily >>= _ = _
  rw [h3]
  show runPass input output s3 packageFamily >>= _ = _
  rw [h4]
  show runPass input output s4 zipFamily >>= _ = _
  rw [h5]
  show runPass input output s5 nonGisFamily >>= _ = _
  rw [h6]
  show runPass input output s6 genericFamily = _
  exact h7

/- === The audit log is append-only === -/

theorem copyFile_log (st : St) (src dst : Path) :
    (copyFile st src dst).2 =
      st.2 ++ (match st.1.read src with
        | some _ =>
          if st.1.copyOk dst then [⟨copiedTag, src, dst, (splitextP src).2⟩] else []
        | none => []) := by
  unfold copyFile
  cases st.1.read src with
  | some c =>
    by_cases hc : st.1.copyOk dst = true
    · simp [hc]
    · simp [hc]
  | none => simp

theorem deleteFile_log (st : St) (p : Path) :
    (deleteFile st p).2 =
      st.2 ++ (if st.1.listing.contains p
        then [⟨deletedTag, p, [], (splitextP p).2⟩] else []) := by
  unfold deleteFile
  by_cases hc : p ∈ st.1.listing
  · simp [hc]
  · simp [hc]

theorem foldl_log_mono {β : Type} (f : St → β → St)
    (hstep : ∀ s b, s.2 <+: (f s b).2) :
    ∀ (l : List β) (s : St), s.2 <+: (l.foldl f s).2 := by
  intro l
  induction l with
  | nil => intro s; exact List.prefix_refl _
  | cons b t ih => intro s; exact (hstep s b).trans (ih (f s b))

theorem copyFile_log_mono (st : St) (src dst : Path) :
    st.2 <+: (copyFile st src dst).2 := by
  rw [copyFile_log]
  exact List.prefix_append _ _

theorem deleteFile_log_mono (st : St) (p : Path) :
    st.2 <+: (deleteFile st p).2 := by
  rw [deleteFile_log]
  exact List.prefix_append _ _

theorem consolidate_log_mono (input output : Path) (st : St) (a : Artifact) :
    st.2 <+: (consolidate input output st a).2 := by
  unfold consolidate
  refine List.IsPrefix.trans ?_
    (foldl_log_mono _ (fun s f => deleteFile_log_mono s f) a.files _)
  exact foldl_log_mono _ (fun s f => copyFile_log_mono s f (dstOf input output f)) a.files st

theorem consolidateGuarded_log_mono (input output : Path) (st : St) (a : Artifact) :
    st.2 <+: (consolidateGuarded input output st a).2 := by
  unfold consolidateGuarded
  split
  · exact List.prefix_refl _
  · exact consolidate_log_mono input output st a

theorem processGroup_log_mono {cons : St → Artifact → St}
    (hcons : ∀ s a, s.2 <+: (cons s a).2)
    (st : St) (g : List Artifact) (st2 : St)
    (h : processGroup cons st g = .ok st2) : st.2 <+: st2.2 := by
  unfold processGroup at h
  by_cases hg : g.length > 1
  · rw [if_pos hg] at h
    cases hm : g.mapM (fun a => do
        let k ← safeCtime st.1 a.keyPath
        pure (k, a)) with
    | ok keyed =>
      rw [hm] at h
      have h2 : Except.ok ((((sortedKeyed keyed).map (fun p => p.2)).tail).foldl cons st)
          = Except.ok st2 := h
      have h3 := Except.ok.inj h2
      rw [← h3]
      exact foldl_log_mono cons hcons _ st
    | error e =>
      rw [hm] at h
      exact absurd h (by simp [Except.bind])
  · rw [if_neg hg] at h
    have h2 := Except.ok.inj h
    rw [← h2]

/- === Claim theorems === -/

/-- C1: the claim states that a member file whose copy to its destination
fails is never deleted and still exists at its source path after the run.
Evaluating the full run on `fsCopyFail` — a duplicate pair in which every
copy to the output root fails — shows the code deleting the duplicate
`in/b/x.txt` anyway: the final log holds one Deleted record and no Copied
record, and `in/b/x.txt` is gone from the final listing, because
`_process_generic_files` invokes `dup.delete()` unconditionally after
`dup.copy_to(...)`, with `copy_file` having swallowed the copy failure.
The comment above the deletion in `_process_files` ("Delete from input
folder after successful copy") and the commented-out geodatabase code
(`if dup.copy_to(dst): dup.delete()`) document the claimed behaviour, so
the claim is right and the code is wrong. -/
theorem copy_failure_still_deletes :
    resLog (runAll fsCopyFail (pchars "in") (pchars "out")) =
      some [⟨deletedTag, pchars "in/b/x.txt", [], pchars ".txt"⟩] ∧
    resListing (runAll fsCopyFail (pchars "in") (pchars "out")) =
      some [pchars "in/a/x.txt"] :=
  ⟨rfl, rfl⟩

/-- C2 counterexample: the claim states that an artifact whose every
member fails to read obtains no fingerprint and is excluded from
clustering. On `fsUnreadableShp` the shapefile group for `in/p.shp` has
exactly one member, that member is unreadable, yet `ShapefileGroup.hash`
returns the digest of the empty byte stream (a truthy hex string, not
`None`), and the artifact IS placed in a fingerprint bucket. -/
theorem unreadable_group_still_bucketed :
    fsUnreadableShp.read (pchars "in/p.shp") = none ∧
    shapefileFamily.hash fsUnreadableShp
      (shapefileGroup fsUnreadableShp (pchars "in/p.shp")) = some [] ∧
    scanBuckets fsUnreadableShp shapefileFamily (pchars "in") =
      [[{ keyPath := pchars "in/p", files := [pchars "in/p.shp"] }]] :=
  ⟨rfl, rfl, rfl⟩

/-- C2 (amended): only the atomic single-file families (packages, ZIP
archives, non-GIS databases) hash through `get_file_hash`, which returns
`None` on a read failure; their unreadable artifacts are indeed excluded
from every fingerprint bucket (hence never survivors and never
relocated). The grouped families skip unreadable members and always
return a digest, so a fully unreadable grouped artifact is still
clustered (see the counterexample). -/
theorem unreadable_atomic_excluded (fs : FS) (fam : Family) (input p : Path)
    (hfam : fam = packageFamily ∨ fam = zipFamily ∨ fam = nonGisFamily)
    (hread : fs.read p = none) :
    getFileHash fs p = none ∧
    ∀ g ∈ scanBuckets fs fam input, ∀ a ∈ g, a.keyPath ≠ p := by
  refine ⟨hread, ?_⟩
  intro g hg a ha heq
  have hsome := scanBuckets_hash_isSome fs fam input g hg a ha
  have hhash : fam.hash fs a = getFileHash fs a.keyPath := by
    rcases hfam with rfl | rfl | rfl
    · rfl
    · rfl
    · rfl
  rw [hhash, heq] at hsome
  simp [getFileHash, hread] at hsome

/-- Witness for the amended C2 at a concrete unreadable ZIP archive. -/
theorem unreadable_atomic_excluded_witness :
    getFileHash fsUnreadableZip (pchars "in/q.zip") = none ∧
    ∀ g ∈ scanBuckets fsUnreadableZip zipFamily (pchars "in"),
      ∀ a ∈ g, a.keyPath ≠ pchars "in/q.zip" :=
  unreadable_atomic_excluded fsUnreadableZip zipFamily (pchars "in")
    (pchars "in/q.zip") (Or.inr (Or.inl rfl)) rfl

/-- C3 counterexample: the claim states that an artifact whose timestamp
cannot be obtained sorts last and "is never chosen as survivor". On
`fsTwoTxt` the generic artifacts for `in/a/x.txt` and `in/b/x.txt` both
have identity paths (`in/b/x`, `in/a/x`) whose creation time cannot be
obtained, so both keys are infinite; the stable sort keeps discovery
order and the head of the sort — the survivor, the artifact whose
consolidation `processGroup` skips — is itself an artifact with an
unobtainable timestamp, and the tail consolidated is the other one. -/
theorem all_inf_cluster_survivor :
    [artGenB, artGenA].mapM (fun a => do
        let k ← safeCtime fsTwoTxt a.keyPath
        pure (k, a)) =
      Except.ok [(SortKey.inf, artGenB), (SortKey.inf, artGenA)] ∧
    (sortedKeyed [(SortKey.inf, artGenB), (SortKey.inf, artGenA)]).head? =
      some (SortKey.inf, artGenB) ∧
    fsTwoTxt.ctime artGenB.keyPath = .missing ∧
    ((sortedKeyed [(SortKey.inf, artGenB), (SortKey.inf, artGenA)]).map
      (fun p => p.2)).tail = [artGenA] :=
  ⟨rfl, rfl, rfl, rfl⟩

/-- C3 (amended): within one cluster the key-decorated artifacts are
sorted ascending by the `_safe_ctime` key of their identity path (keys
are exactly the creation-time lookups), an unobtainable timestamp gets
the infinite key, ties keep the clustering order (stable sort: for every
key value the filtered subsequence is unchanged), the head of the sorted
group is retained and exactly the tail is consolidated — and an artifact
with an unobtainable timestamp is never the survivor PROVIDED some
artifact of the cluster has an obtainable one (when every lookup fails,
the first-discovered infinite-key artifact survives, see the
counterexample). -/
theorem survivor_selection (fs : FS) (g : List Artifact)
    (keyed : List (SortKey × Artifact))
    (h : g.mapM (fun a => do
      let k ← safeCtime fs a.keyPath
      pure (k, a)) = Except.ok keyed) :
    (keyed.map (fun p => p.2) = g ∧
      ∀ p ∈ keyed, safeCtime fs p.2.keyPath = .ok p.1) ∧
    (sortedKeyed keyed).Pairwise (fun x y => pairLT y x = false) ∧
    List.Perm (sortedKeyed keyed) keyed ∧
    (∀ v, (sortedKeyed keyed).filter (fun p => decide (p.1 = v)) =
      keyed.filter (fun p => decide (p.1 = v))) ∧
    (∀ s, (sortedKeyed keyed).head? = some s →
      (∃ p ∈ keyed, p.1 ≠ SortKey.inf) → s.1 ≠ SortKey.inf) ∧
    (∀ (cons : St → Artifact → St) (log : List ActionRec), 1 < g.length →
      processGroup cons (fs, log) g =
        .ok ((((sortedKeyed keyed).map (fun p => p.2)).tail).foldl cons (fs, log))) := by
  refine ⟨mapM_keys_spec fs g keyed h, sortedKeyed_sorted keyed,
    sortedKeyed_perm keyed, (fun v => sortedKeyed_stable keyed v), ?_, ?_⟩
  · intro s hs hex heq
    obtain ⟨p, hp, hne⟩ := hex
    have hmin := sortedKeyed_head_min keyed s hs p hp
    cases hpk : p.1 with
    | inf => exact hne hpk
    | fin t =>
      rw [hpk, heq] at hmin
      simp [keyLT] at hmin
  · intro cons log hlen
    unfold processGroup
    rw [if_pos hlen]
    rw [h]
    rfl

/-- Witness for the amended C3 at a concrete two-artifact cluster with
obtainable timestamps. -/
theorem survivor_selection_witness :
    List.Perm (sortedKeyed [(SortKey.fin 2, artPkgU), (SortKey.fin 1, artPkgV)])
      [(SortKey.fin 2, artPkgU), (SortKey.fin 1, artPkgV)] :=
  (survivor_selection fsTimed [artPkgU, artPkgV]
    [(SortKey.fin 2, artPkgU), (SortKey.fin 1, artPkgV)] rfl).2.2.1

/-- C4 counterexample: the claim states that two artifacts of the same
family with byte-identical member sets fingerprint equal because members
are visited in a fixed reproducible order. On `fsSwapped` the two
shapefile artifacts `p` and `q` carry the same multiset of member
contents (`[1]` and `[2]`), but `ShapefileGroup.hash` feeds members in
raw `glob` enumeration order without sorting, so the digests differ. -/
theorem shapefile_hash_order_dependent :
    artShpP.files.map (readD fsSwapped) = [[1], [2]] ∧
    artShpQ.files.map (readD fsSwapped) = [[2], [1]] ∧
    List.Perm (artShpP.files.map (readD fsSwapped))
      (artShpQ.files.map (readD fsSwapped)) ∧
    groupHash fsSwapped artShpP ≠ groupHash fsSwapped artShpQ :=
  ⟨rfl, rfl, by decide, by decide⟩

/-- C4 (amended): only `MapInfoGroup.hash` visits members in a fixed
reproducible order (`sorted(self.files)`), so a MapInfo fingerprint is
invariant under any permutation of the member enumeration; the shapefile,
image and generic hashes feed members in raw enumeration order, so their
fingerprints agree only when the member contents agree position-wise in
enumeration order (see the counterexample). -/
theorem mapinfo_hash_enumeration_invariant (fs : FS) (a b : Artifact)
    (h : List.Perm a.files b.files) : mapInfoHash fs a = mapInfoHash fs b := by
  unfold mapInfoHash
  have hsort : a.files.insertionSort (fun x y => x ≤ y) =
      b.files.insertionSort (fun x y => x ≤ y) := by
    letI : IsAntisymm Path (fun x y : Path => x ≤ y) := ⟨fun x y => le_antisymm⟩
    letI : IsTotal Path (fun x y : Path => x ≤ y) := ⟨le_total⟩
    letI : IsTrans Path (fun x y : Path => x ≤ y) := ⟨fun x y z => le_trans⟩
    have hs1 := List.sorted_insertionSort (fun x y : Path => x ≤ y) a.files
    have hs2 := List.sorted_insertionSort (fun x y : Path => x ≤ y) b.files
    have hperm : (a.files.insertionSort (fun x y : Path => x ≤ y)).Perm
        (b.files.insertionSort (fun x y : Path => x ≤ y)) :=
      (List.perm_insertionSort _ _).trans (h.trans (List.perm_insertionSort _ _).symm)
    exact List.eq_of_perm_of_sorted hperm hs1 hs2
  rw [hsort]

/-- Witness for the amended C4 on a concrete two-member MapInfo artifact
enumerated in both orders. -/
theorem mapinfo_hash_enumeration_invariant_witness :
    mapInfoHash fsMapinfo
      { keyPath := pchars "in/m", files := [pchars "in/m.tab", pchars "in/m.dat"] } =
    mapInfoHash fsMapinfo
      { keyPath := pchars "in/m", files := [pchars "in/m.dat", pchars "in/m.tab"] } :=
  mapinfo_hash_enumeration_invariant fsMapinfo _ _ (by decide)

/-- C5: the claim states that classification is a partition — no physical
file claimed by two artifacts of one family in one pass, each base path
mapping to exactly one artifact. In the image pass every file with an
image extension is its own entry point, so the lone raster dataset of
`fsImagePair` (`foo.tif` + `foo.tfw`) yields TWO `ImageGroup` artifacts
with the same base path, each claiming both files. The two artifacts
then hash equal, form a "duplicate" cluster, and the run copies and
deletes both members: the input tree loses its only copy of the dataset,
contradicting the script's own description ("retains the oldest copy ...
and copies the rest"), so the claim is right and the code is wrong. -/
theorem image_pass_double_claim :
    scanArtifacts fsImagePair imageFamily (pchars "in") =
      [{ keyPath := pchars "in/foo",
         files := [pchars "in/foo.tif", pchars "in/foo.tfw"] },
       { keyPath := pchars "in/foo",
         files := [pchars "in/foo.tif", pchars "in/foo.tfw"] }] ∧
    resListing (runAll fsImagePair (pchars "in") (pchars "out")) =
      some [pchars "out/./foo.tif", pchars "out/./foo.tfw"] ∧
    resLog (runAll fsImagePair (pchars "in") (pchars "out")) =
      some [⟨copiedTag, pchars "in/foo.tif", pchars "out/./foo.tif", pchars ".tif"⟩,
            ⟨copiedTag, pchars "in/foo.tfw", pchars "out/./foo.tfw", pchars ".tfw"⟩,
            ⟨deletedTag, pchars "in/foo.tif", [], pchars ".tif"⟩,
            ⟨deletedTag, pchars "in/foo.tfw", [], pchars ".tfw"⟩] :=
  ⟨rfl, rfl, rfl⟩

/-- C6 counterexample: the claim states no family's failure halts the run
and the run always completes and produces the report. On `fsDeniedCtime`
the image pass finds a duplicate cluster whose identity path `in/a`
answers `os.path.getctime` with a permission error; `_safe_ctime` catches
only `FileNotFoundError`, so the exception propagates through the pass,
`run_all`, and `main`: the run aborts, the later passes (including the
generic pass with its own pending duplicate pair) never execute, and no
report is written. -/
theorem denied_ctime_aborts_run :
    fsDeniedCtime.ctime (pchars "in/a") = .denied ∧
    mainRun fsDeniedCtime (pchars "in") (pchars "out") = .error () :=
  ⟨rfl, rfl⟩

/-- C6 (amended): failures of individual file operations (hash reads,
copies, deletions) are caught per file and never halt the run, so any
run in which every creation-time lookup answers with a timestamp or
FileNotFoundError completes and produces the report — but there is no
per-family fault isolation: an uncaught error inside a family pass (e.g.
a permission-denied creation-time lookup) aborts the whole run with no
report (see the counterexample). -/
theorem no_denied_run_completes (fs : FS) (input output : Path)
    (h : NoDenied fs) :
    ∃ r, mainRun fs input output = .ok r := by
  obtain ⟨st, hst⟩ := runAll_ok h input output
  refine ⟨(writeCsvReport st.2, st), ?_⟩
  unfold mainRun
  rw [hst]
  rfl

/-- Witness for the amended C6: a run over a tree whose creation-time
lookups all answer FileNotFoundError (and whose copies all succeed)
completes. -/
theorem no_denied_run_completes_witness :
    ∃ r, mainRun fsAudit (pchars "in") (pchars "out") = .ok r :=
  no_denied_run_completes fsAudit (pchars "in") (pchars "out")
    (fun p => by simp [fsAudit])

/-- C7: the claim (the spec's own scenario) states that with identical
`a/x.txt` and `b/x.txt` where `a/x.txt` was created earlier, the run
copies `b/x.txt` to `out/b/x.txt`, removes it, and leaves `a/x.txt`
untouched. On `fsTwoTxt` — exactly that tree, with the directory walk
enumerating `b` before `a` (walk order is filesystem-dependent) — the
code instead copies and deletes the OLDER `in/a/x.txt`: the sort key is
`_safe_ctime` of the extension-stripped base path (`in/a/x`), which is
not an existing file, so both keys are infinite and the stable sort
retains whichever file the walk found first. This contradicts the
script's own docstring ("it retains the oldest copy (based on creation
time)"), so the claim is right and the code is wrong. -/
theorem older_file_deleted_scenario :
    fsTwoTxt.ctime (pchars "in/a/x.txt") = .found 1 ∧
    fsTwoTxt.ctime (pchars "in/b/x.txt") = .found 2 ∧
    fsTwoTxt.read (pchars "in/a/x.txt") = fsTwoTxt.read (pchars "in/b/x.txt") ∧
    resLog (runAll fsTwoTxt (pchars "in") (pchars "out")) =
      some [⟨copiedTag, pchars "in/a/x.txt", pchars "out/a/x.txt", pchars ".txt"⟩,
            ⟨deletedTag, pchars "in/a/x.txt", [], pchars ".txt"⟩] ∧
    resListing (runAll fsTwoTxt (pchars "in") (pchars "out")) =
      some [pchars "in/b/x.txt", pchars "out/a/x.txt"] :=
  ⟨rfl, rfl, rfl, rfl, rfl⟩

/-- C8 counterexample: the claim states a second run on the state left by
the first performs zero new relocations. On `fsOverlap` the first run
relocates `in/d1/s1x.txt` (duplicate of `in/d2/w.txt`); this deletion
shrinks the prefix-overlapping group of `in/d1/s1.txt` (which had claimed
both `s1.txt` and `s1x.txt` and therefore hashed differently), so in the
second run that group fingerprints equal to `in/d2/w.txt`'s and the
second run copies and deletes `in/d1/s1.txt` — one new relocation. -/
theorem second_run_relocates :
    resLog (runAll fsOverlap (pchars "in") (pchars "out")) =
      some [⟨copiedTag, pchars "in/d1/s1x.txt", pchars "out/d1/s1x.txt", pchars ".txt"⟩,
            ⟨deletedTag, pchars "in/d1/s1x.txt", [], pchars ".txt"⟩] ∧
    resLog (runAll fsOverlapAfter (pchars "in") (pchars "out")) =
      some [⟨copiedTag, pchars "in/d1/s1.txt", pchars "out/d1/s1.txt", pchars ".txt"⟩,
            ⟨deletedTag, pchars "in/d1/s1.txt", [], pchars ".txt"⟩] ∧
    resListing (runAll fsOverlapAfter (pchars "in") (pchars "out")) =
      some [pchars "in/d2/w.txt", pchars "out/d1/s1x.txt", pchars "out/d1/s1.txt"] :=
  ⟨rfl, rfl, rfl⟩

/-- C8 (amended): a run performs zero relocations exactly when every
fingerprint bucket it builds has size at most one — `processClusters`
then returns the state unchanged, so nothing is copied or deleted. The
first run does NOT guarantee this for the state it leaves: its deletions
can shrink prefix-overlapping groups so that two surviving artifacts
fingerprint equal, and a second run then performs new relocations (see
the counterexample). -/
theorem distinct_fingerprints_no_actions (cons : St → Artifact → St) (st : St) :
    ∀ (buckets : List (List Artifact)), (∀ g ∈ buckets, g.length ≤ 1) →
      processClusters cons st buckets = .ok st := by
  intro buckets
  induction buckets with
  | nil => intro _; rfl
  | cons g bs ih =>
    intro h
    have hg : ¬ g.length > 1 := by
      have := h g (List.mem_cons_self _ _)
      omega
    show (g :: bs).foldlM (processGroup cons) st = .ok st
    rw [List.foldlM_cons]
    have hpg : processGroup cons st g = .ok st := by
      unfold processGroup
      rw [if_neg hg]
      rfl
    rw [hpg]
    exact ih (fun g2 hg2 => h g2 (List.mem_cons_of_mem _ hg2))

/-- Witness for the amended C8 on a concrete singleton bucket. -/
theorem distinct_fingerprints_no_actions_witness :
    processClusters (consolidate (pchars "in") (pchars "out")) (fsPlain, [])
      [[{ keyPath := pchars "in/z", files := [pchars "in/z.txt"] }]] =
      .ok (fsPlain, []) :=
  distinct_fingerprints_no_actions (consolidate (pchars "in") (pchars "out"))
    (fsPlain, []) [[{ keyPath := pchars "in/z", files := [pchars "in/z.txt"] }]]
    (by decide)

/-- C9: the audit log is created empty, `copy_file` appends exactly one
`Copied` record (source, destination, source extension) per successful
copy and nothing on failure, `delete_file` appends exactly one `Deleted`
record with empty destination per successful delete and nothing on
failure, processing only ever extends the log (records are never mutated
or removed: the incoming log is a prefix of the outgoing log), and at
run end the report is the header row followed by one row per record in
order. -/
theorem audit_trail_invariant :
    (∀ (st : St) (src dst : Path), (copyFile st src dst).2 =
      st.2 ++ (match st.1.read src with
        | some _ =>
          if st.1.copyOk dst then [⟨copiedTag, src, dst, (splitextP src).2⟩] else []
        | none => [])) ∧
    (∀ (st : St) (p : Path), (deleteFile st p).2 =
      st.2 ++ (if st.1.listing.contains p
        then [⟨deletedTag, p, [], (splitextP p).2⟩] else [])) ∧
    (∀ (input output : Path) (st : St) (g : List Artifact) (st2 : St),
      processGroup (consolidate input output) st g = .ok st2 → st.2 <+: st2.2) ∧
    (∀ (input output : Path) (st : St) (g : List Artifact) (st2 : St),
      processGroup (consolidateGuarded input output) st g = .ok st2 → st.2 <+: st2.2) ∧
    (∀ (fs : FS) (input output : Path) (rep : List (List (List Char))) (st : St),
      mainRun fs input output = .ok (rep, st) →
        rep = headerRow :: st.2.map recRow) := by
  refine ⟨copyFile_log, deleteFile_log, ?_, ?_, ?_⟩
  · intro i o st g st2 h
    exact processGroup_log_mono (fun s a => consolidate_log_mono i o s a) st g st2 h
  · intro i o st g st2 h
    exact processGroup_log_mono (fun s a => consolidateGuarded_log_mono i o s a) st g st2 h
  · intro fs i o rep st h
    unfold mainRun at h
    cases hr : runAll fs i o with
    | ok st0 =>
      rw [hr] at h
      have h2 : Except.ok (writeCsvReport st0.2, st0) = Except.ok (rep, st) := h
      have h3 := Except.ok.inj h2
      have hrep : rep = writeCsvReport st0.2 := by
        have := congrArg Prod.fst h3
        exact this.symm
      have hst : st0 = st := congrArg Prod.snd h3
      rw [hrep, ← hst]
      rfl
    | error e =>
      rw [hr] at h
      exact Except.noConfusion h

/-- Witness for C9: the report of a completed concrete run is the header
row followed by its log's rows. -/
theorem audit_trail_invariant_witness :
    ∃ r, mainRun fsAudit (pchars "in") (pchars "out") = Except.ok r ∧
      r.1 = headerRow :: r.2.2.map recRow := by
  cases hm : mainRun fsAudit (pchars "in") (pchars "out") with
  | ok r =>
    refine ⟨r, rfl, ?_⟩
    exact audit_trail_invariant.2.2.2.2 fsAudit (pchars "in") (pchars "out")
      r.1 r.2 (by rw [hm])
  | error e =>
    have h2 : (mainRun fsAudit (pchars "in") (pchars "out")).isOk = true := rfl
    rw [hm] at h2
    exact Bool.noConfusion h2

/-- C10: in every family pass, a fingerprint bucket of size at most one
is skipped with the engine state untouched (no `copy_to`, no `delete`),
and in a bucket of size above one the consolidation fold runs over
exactly the tail of the stable creation-time sort — the head (the
retained survivor) is never passed to the consolidator. -/
theorem consolidation_only_tail (cons : St → Artifact → St) (st : St)
    (g : List Artifact) :
    (g.length ≤ 1 → processGroup cons st g = .ok st) ∧
    (∀ keyed, g.mapM (fun a => do
        let k ← safeCtime st.1 a.keyPath
        pure (k, a)) = Except.ok keyed →
      1 < g.length →
      processGroup cons st g =
        .ok ((((sortedKeyed keyed).map (fun p => p.2)).tail).foldl cons st)) := by
  constructor
  · intro h
    unfold processGroup
    rw [if_neg (by omega)]
    rfl
  · intro keyed hk hlen
    unfold processGroup
    rw [if_pos hlen, hk]
    rfl

/-- Witness for C10: a singleton bucket leaves the state untouched. -/
theorem consolidation_only_tail_witness :
    processGroup (consolidate (pchars "in") (pchars "out")) (fsPlain, [])
      [{ keyPath := pchars "in/z", files := [pchars "in/z.txt"] }] =
      .ok (fsPlain, []) :=
  (consolidation_only_tail (consolidate (pchars "in") (pchars "out")) (fsPlain, [])
    [{ keyPath := pchars "in/z", files := [pchars "in/z.txt"] }]).1 (by decide)

end DupRemover
